import Mathlib

/-!
Verification of the chess rules / game-state engine of `js/chess.js`
(3D Chess Master).  The engine is embedded shallowly:

* the 8×8 board `boardState[z][x]` becomes `Board := Fin 8 → Fin 8 → Option Piece`,
  accessed through `boardGet`, which returns `none` off the board — mirroring the
  guarded `bs[z] && bs[z][x]` accesses of the source;
* coordinates are `Int`, as JavaScript move objects may hold any integers;
* the mutable globals (`boardState`, `currentPlayer`, `moveHistory`, `captured`,
  `gameState`, `statusBox.textContent`) become the fields of the `Game` structure;
  meshes and all other rendering state are dropped, `statusBox`'s text is
  abstracted to the three values the engine ever writes;
* JavaScript `for (z) for (x)` scans become folds over the `allSquares` list
  (z-major, matching source order); the two `while` loops (`isPathClear` and the
  sliding-piece ray walk of `generatePseudoMoves`) become fuel recursions whose
  fuel strictly exceeds the number of iterations possible on an 8×8 board;
* JS array `push`/`pop` pairs (history, captured lists) are modelled with
  most-recent-first lists (`::` / `.tail`), which is the same stack discipline.
-/

namespace Chess3D

/-- Piece colors, `'white' | 'black'` in the source. -/
inductive Color
  | white
  | black
deriving DecidableEq, Repr, Fintype

/-- The turn flip `currentPlayer === 'white' ? 'black' : 'white'`. -/
def Color.other : Color → Color
  | .white => .black
  | .black => .white

/-- Piece types, the `type` strings of the source. -/
inductive PieceType
  | pawn
  | knight
  | bishop
  | rook
  | queen
  | king
deriving DecidableEq, Repr, Fintype

/-- A board cell's occupant: `{ type, color }` (the `mesh` handle is rendering
state and is not part of the engine model). -/
structure Piece where
  type : PieceType
  color : Color
deriving DecidableEq, Repr

/-- A move `{ fromX, fromZ, toX, toZ }`. -/
structure Move where
  fromX : Int
  fromZ : Int
  toX : Int
  toZ : Int
deriving DecidableEq, Repr

/-- `boardState[z][x]`: an 8×8 grid of optional pieces, indexed z-then-x. -/
abbrev Board := Fin 8 → Fin 8 → Option Piece

/-- `isInside(x, z)`: `x >= 0 && x < 8 && z >= 0 && z < 8`. -/
def isInside (x z : Int) : Bool :=
  decide (0 ≤ x ∧ x < 8 ∧ 0 ≤ z ∧ z < 8)

/-- Read `bs[z][x]`; out-of-range indices read as `none`, mirroring the
source's guarded accesses (`bs[z] && bs[z][x]`). -/
def boardGet (bs : Board) (z x : Int) : Option Piece :=
  if hz : 0 ≤ z ∧ z < 8 then
    if hx : 0 ≤ x ∧ x < 8 then
      bs ⟨z.toNat, by omega⟩ ⟨x.toNat, by omega⟩
    else none
  else none

/-- Write `bs[z][x] = v` (a value-level update; out-of-range writes are
dropped by `boardGet`'s bounds check). -/
def boardSet (bs : Board) (z x : Int) (v : Option Piece) : Board :=
  fun zi xi => if (zi : Int) = z ∧ (xi : Int) = x then v else bs zi xi

/-- `cloneBoard(bs)`: deep value copy keeping only `type` and `color`.
In this mesh-free embedding it preserves every cell. -/
def cloneBoard (bs : Board) : Board :=
  fun z x => (bs z x).map fun p => ⟨p.type, p.color⟩

/-- The body of `isPathClear`'s `while (x !== tX || z !== tZ)` loop, as a fuel
recursion.  On the aligned in-board calls the source performs, the loop runs at
most 7 times, so fuel 16 is never exhausted. -/
def pathClearAux (bs : Board) (tX tZ sx sz : Int) : Nat → Int → Int → Bool
  | 0, _, _ => false
  | fuel + 1, x, z =>
    if x = tX ∧ z = tZ then true
    else (boardGet bs z x).isNone && pathClearAux bs tX tZ sx sz fuel (x + sx) (z + sz)

/-- `isPathClear(bs, fX, fZ, tX, tZ)`: every square strictly between the two
endpoints (stepping by the coordinate signs) is empty. -/
def isPathClear (bs : Board) (fX fZ tX tZ : Int) : Bool :=
  pathClearAux bs tX tZ (tX - fX).sign (tZ - fZ).sign 16
    (fX + (tX - fX).sign) (fZ + (tZ - fZ).sign)

/-- `isPseudoLegal(move, bs, forCheck)`: piece-pattern legality, ignoring
self-check.  `forCheck = true` is the attack-probe mode that skips the
same-color-target rejection. -/
def isPseudoLegal (move : Move) (bs : Board) (forCheck : Bool) : Bool :=
  match boardGet bs move.fromZ move.fromX with
  | none => false
  | some piece =>
    let dx := move.toX - move.fromX
    let dz := move.toZ - move.fromZ
    let adx := dx.natAbs
    let adz := dz.natAbs
    let target := boardGet bs move.toZ move.toX
    if !forCheck && (match target with
        | some t => decide (t.color = piece.color)
        | none => false) then false
    else
      match piece.type with
      | .pawn =>
        let dir : Int := if piece.color = .white then -1 else 1
        let start : Int := if piece.color = .white then 6 else 1
        if dx = 0 then
          if dz = dir ∧ target = none then true
          else if dz = 2 * dir ∧ move.fromZ = start ∧ target = none ∧
              boardGet bs (move.fromZ + dir) move.fromX = none then true
          else false
        else if adx = 1 ∧ dz = dir then
          match target with
          | some t => decide (t.color ≠ piece.color)
          | none => false
        else false
      | .rook =>
        if dx ≠ 0 ∧ dz ≠ 0 then false
        else isPathClear bs move.fromX move.fromZ move.toX move.toZ
      | .bishop =>
        if adx ≠ adz then false
        else isPathClear bs move.fromX move.fromZ move.toX move.toZ
      | .queen =>
        if dx = 0 ∨ dz = 0 ∨ adx = adz then
          isPathClear bs move.fromX move.fromZ move.toX move.toZ
        else false
      | .knight => decide ((adx = 1 ∧ adz = 2) ∨ (adx = 2 ∧ adz = 1))
      | .king => decide (max adx adz = 1)

/-- `applyMoveOnClone(bs, move)`: relocate the piece (destination written first,
then the source cleared, in source order), promoting a pawn that lands on rank
0 or 7 to a queen. -/
def applyMoveOnClone (bs : Board) (move : Move) : Board :=
  let piece := boardGet bs move.fromZ move.fromX
  let bs1 := boardSet bs move.toZ move.toX piece
  let bs2 := boardSet bs1 move.fromZ move.fromX none
  match piece with
  | some p =>
    if p.type = .pawn ∧ (move.toZ = 0 ∨ move.toZ = 7) then
      boardSet bs2 move.toZ move.toX (some ⟨.queen, p.color⟩)
    else bs2
  | none => bs2

/-- The z-major, then x-major square enumeration
`for (z = 0..7) for (x = 0..7)` used throughout the source; pairs are `(z, x)`. -/
def allSquares : List (Int × Int) :=
  (List.range 8).flatMap fun (z : Nat) => (List.range 8).map fun (x : Nat) => ((z : Int), (x : Int))

/-- The king-locating scan of `isKingInCheck`: the source overwrites `kx, kz`
on every match, so the *last* matching square wins.  Returns `(kx, kz)`. -/
def findKing (bs : Board) (player : Color) : Option (Int × Int) :=
  allSquares.foldl
    (fun acc s =>
      if boardGet bs s.1 s.2 = some ⟨.king, player⟩ then some (s.2, s.1) else acc)
    none

/-- `isKingInCheck(bs, player)`: if the king is absent, `true`; otherwise some
opposing piece has a pseudo-legal attack-probe move onto the king's square. -/
def isKingInCheck (bs : Board) (player : Color) : Bool :=
  match findKing bs player with
  | none => true
  | some (kx, kz) =>
    allSquares.any fun s =>
      match boardGet bs s.1 s.2 with
      | some q =>
        if q.color = player.other then isPseudoLegal ⟨s.2, s.1, kx, kz⟩ bs true
        else false
      | none => false

/-- `isLegalMove(move, player)`: a piece of `player`'s color on the from-square,
pseudo-legal on the live board, and the player's king is not in check after
applying the move on a clone.  The board is passed explicitly (the source reads
the global `boardState`). -/
def isLegalMove (bs : Board) (move : Move) (player : Color) : Bool :=
  match boardGet bs move.fromZ move.fromX with
  | none => false
  | some p =>
    if p.color = player then
      isPseudoLegal move bs false &&
        !isKingInCheck (applyMoveOnClone (cloneBoard bs) move) player
    else false

/-- One step direction/offset tables, in source literal order. -/
def knightDeltas : List (Int × Int) :=
  [(1, 2), (2, 1), (-1, 2), (-2, 1), (1, -2), (2, -1), (-1, -2), (-2, -1)]

/-- King offsets in the order produced by the source's double loop
`for (dx = -1..1) for (dz = -1..1)` skipping `(0,0)`. -/
def kingDeltas : List (Int × Int) :=
  [(-1, -1), (-1, 0), (-1, 1), (0, -1), (0, 1), (1, -1), (1, 0), (1, 1)]

def rookDirs : List (Int × Int) := [(1, 0), (-1, 0), (0, 1), (0, -1)]

def bishopDirs : List (Int × Int) := [(1, 1), (1, -1), (-1, 1), (-1, -1)]

def queenDirs : List (Int × Int) := rookDirs ++ bishopDirs

/-- `!bs[nz][nx] || bs[nz][nx].color !== color`. -/
def emptyOrEnemy (bs : Board) (color : Color) (x z : Int) : Bool :=
  match boardGet bs z x with
  | none => true
  | some q => decide (q.color ≠ color)

/-- The sliding-piece `while (isInside(nx, nz))` walk of `generatePseudoMoves`:
push empty squares and keep going, push an enemy-occupied square and stop, stop
at an own piece or the board edge.  Starting adjacent to an on-board square the
walk visits at most 7 cells, so fuel 8 is never exhausted. -/
def rayWalk (bs : Board) (color : Color) (dx dz : Int) : Nat → Int → Int → List (Int × Int)
  | 0, _, _ => []
  | fuel + 1, nx, nz =>
    if isInside nx nz then
      match boardGet bs nz nx with
      | none => (nx, nz) :: rayWalk bs color dx dz fuel (nx + dx) (nz + dz)
      | some q => if q.color ≠ color then [(nx, nz)] else []
    else []

/-- `generatePseudoMoves(x, z, bs)`: the pseudo-legal destinations `(toX, toZ)`
of the piece at `(x, z)`, in source push order. -/
def generatePseudoMoves (x z : Int) (bs : Board) : List (Int × Int) :=
  match boardGet bs z x with
  | none => []
  | some p =>
    let color := p.color
    let dir : Int := if color = .white then -1 else 1
    match p.type with
    | .pawn =>
      let start : Int := if color = .white then 6 else 1
      (if isInside x (z + dir) ∧ boardGet bs (z + dir) x = none
        then [(x, z + dir)] else []) ++
      (if z = start ∧ boardGet bs (z + dir) x = none ∧
          boardGet bs (z + 2 * dir) x = none
        then [(x, z + 2 * dir)] else []) ++
      (([(x - 1, z + dir), (x + 1, z + dir)]).filter fun c =>
        isInside c.1 c.2 &&
          (match boardGet bs c.2 c.1 with
            | some q => decide (q.color ≠ color)
            | none => false))
    | .knight =>
      (knightDeltas.map fun d => (x + d.1, z + d.2)).filter fun c =>
        isInside c.1 c.2 && emptyOrEnemy bs color c.1 c.2
    | .rook => rookDirs.flatMap fun d => rayWalk bs color d.1 d.2 8 (x + d.1) (z + d.2)
    | .bishop => bishopDirs.flatMap fun d => rayWalk bs color d.1 d.2 8 (x + d.1) (z + d.2)
    | .queen => queenDirs.flatMap fun d => rayWalk bs color d.1 d.2 8 (x + d.1) (z + d.2)
    | .king =>
      (kingDeltas.map fun d => (x + d.1, z + d.2)).filter fun c =>
        isInside c.1 c.2 && emptyOrEnemy bs color c.1 c.2

/-- `allLegalMovesFor(player)`: every pseudo-move of every piece of `player`,
filtered through `isLegalMove`, in square-scan order. -/
def allLegalMovesFor (bs : Board) (player : Color) : List Move :=
  allSquares.flatMap fun s =>
    match boardGet bs s.1 s.2 with
    | some p =>
      if p.color = player then
        (generatePseudoMoves s.2 s.1 bs).filterMap fun d =>
          let m : Move := ⟨s.2, s.1, d.1, d.2⟩
          if isLegalMove bs m player then some m else none
      else []
    | none => []

/-- `gameState`: `'playing' | 'ended'`. -/
inductive GPhase
  | playing
  | ended
deriving DecidableEq, Repr

/-- The classification the engine writes to `statusBox.textContent`:
`'Game in Progress'`, `` `${loser} is checkmated!` `` or `'Stalemate'`. -/
inductive GStatus
  | inProgress
  | checkmated (loser : Color)
  | stalemate
deriving DecidableEq, Repr

/-- A `moveHistory` entry `{ move, captured, mover }`. -/
structure HistEntry where
  move : Move
  captured : Option Piece
  mover : Color
deriving DecidableEq, Repr

/-- The engine's mutable globals.  `moveHistory` and the `captured` lists are
most-recent-first (the JS arrays push and pop at the end). -/
structure Game where
  boardState : Board
  currentPlayer : Color
  moveHistory : List HistEntry
  captured : Color → List PieceType
  gameState : GPhase
  statusText : GStatus
deriving DecidableEq

/-- `PIECE_VALUES`. -/
def PIECE_VALUES : PieceType → Int
  | .pawn => 100
  | .knight => 320
  | .bishop => 330
  | .rook => 500
  | .queen => 900
  | .king => 20000

/-- `evaluateMaterial(bs)`: Σ (±value), `+` for white, `−` for black. -/
def evaluateMaterial (bs : Board) : Int :=
  allSquares.foldl
    (fun score s =>
      match boardGet bs s.1 s.2 with
      | some p => score + (if p.color = .white then 1 else -1) * PIECE_VALUES p.type
      | none => score)
    0

/-- `evaluateGameState()`: run after the turn flip; if the (new) current player
has no legal move, the game ends — checkmate if in check, else stalemate;
otherwise only the status text is refreshed (the phase field is untouched). -/
def evaluateGameState (g : Game) : Game :=
  let opponent := g.currentPlayer
  let legal := allLegalMovesFor g.boardState opponent
  let inCheck := isKingInCheck g.boardState opponent
  if legal.isEmpty then
    { g with
      gameState := .ended
      statusText := if inCheck then .checkmated opponent else .stalemate }
  else
    { g with statusText := .inProgress }

/-- `performMove(move)`: push a history entry, record a capture, relocate the
piece (destination written, then source cleared), promote a pawn landing on
rank 0/7 to a queen, flip the turn, and re-evaluate the game state.  The source
presupposes an occupied from-square (its callers check legality first); an
empty from-square leaves the state unchanged here. -/
def performMove (g : Game) (move : Move) : Game :=
  match boardGet g.boardState move.fromZ move.fromX with
  | none => g
  | some fromP =>
    let target := boardGet g.boardState move.toZ move.toX
    let mover := g.currentPlayer
    let history := { move := move, captured := target, mover := mover } :: g.moveHistory
    let captured1 : Color → List PieceType :=
      match target with
      | some t => fun c => if c = mover then t.type :: g.captured c else g.captured c
      | none => g.captured
    let bs1 := boardSet g.boardState move.toZ move.toX (some ⟨fromP.type, fromP.color⟩)
    let bs2 := boardSet bs1 move.fromZ move.fromX none
    let bs3 :=
      if fromP.type = .pawn ∧ (move.toZ = 0 ∨ move.toZ = 7) then
        boardSet bs2 move.toZ move.toX (some ⟨.queen, fromP.color⟩)
      else bs2
    evaluateGameState
      { g with
        boardState := bs3
        currentPlayer := mover.other
        moveHistory := history
        captured := captured1 }

/-- `undoMove()`: no-op on empty history; otherwise pop the last entry, move
the piece at `to` back to `from` as-is, clear `to`, respawn a recorded capture
at `to`, pop the mover's captured list, restore the mover's turn, and
unconditionally reset the phase to playing / 'Game in Progress'. -/
def undoMove (g : Game) : Game :=
  match g.moveHistory with
  | [] => g
  | last :: rest =>
    let m := last.move
    let moved := boardGet g.boardState m.toZ m.toX
    let bs1 := boardSet g.boardState m.fromZ m.fromX moved
    let bs2 := boardSet bs1 m.toZ m.toX none
    let bs3 :=
      match last.captured with
      | some cap => boardSet bs2 m.toZ m.toX (some cap)
      | none => bs2
    let captured1 : Color → List PieceType :=
      match last.captured with
      | some _ => fun c => if c = last.mover then (g.captured c).tail else g.captured c
      | none => g.captured
    { boardState := bs3
      currentPlayer := last.mover
      moveHistory := rest
      captured := captured1
      gameState := .playing
      statusText := .inProgress }

/-- The move-attempt branch of `onPointerDown`: nothing happens while the game
is over; a legal move is performed, an illegal one is rejected with only a
toast ('Invalid move') and no state change.  The Boolean is the
accepted/rejected outcome communicated to the user. -/
def attemptMove (g : Game) (move : Move) : Bool × Game :=
  if g.gameState ≠ .playing then (false, g)
  else if isLegalMove g.boardState move g.currentPlayer then (true, performMove g move)
  else (false, g)

/-- The opponent-reply enumeration inside `makeBestAIMove`: squares and pseudo
moves are taken from `clone` (the position after the AI's candidate move), but
`isLegalMove(cand, 'white')` reads the global `boardState` — the `live`
pre-move board. -/
def aiOppMoves (live clone : Board) : List Move :=
  allSquares.flatMap fun s =>
    match boardGet clone s.1 s.2 with
    | some p =>
      if p.color = .white then
        (generatePseudoMoves s.2 s.1 clone).filterMap fun d =>
          let cand : Move := ⟨s.2, s.1, d.1, d.2⟩
          if isLegalMove live cand .white then some cand else none
      else []
    | none => []

/-- The score (`worst`) `makeBestAIMove` assigns to one of its candidate moves:
material after the opponent's best (max-material) reply, or plain material of
the simulated position if the reply list is empty.  The `-Infinity` starting
accumulator of the source's `Math.max` fold is modelled by folding from the
first element. -/
def aiScore (live : Board) (m : Move) : Int :=
  let clone := applyMoveOnClone (cloneBoard live) m
  let oppMoves := aiOppMoves live clone
  match oppMoves.map (fun om => evaluateMaterial (applyMoveOnClone (cloneBoard clone) om)) with
  | [] => evaluateMaterial clone
  | v :: vs => vs.foldl max v

/-- The move selection of `makeBestAIMove`: fold over black's legal moves
keeping the first move whose score is strictly below the best so far
(`Infinity` initially — modelled by the `none` accumulator). -/
def bestAIMove (live : Board) : Option Move :=
  ((allLegalMovesFor live .black).foldl
    (fun acc m =>
      let worst := aiScore live m
      match acc with
      | none => some (m, worst)
      | some (_, bestScore) => if worst < bestScore then some (m, worst) else acc)
    none).map Prod.fst

/-- `createPieces()` back rank: rook, knight, bishop, queen, king, bishop,
knight, rook. -/
def backRank (x : Nat) : PieceType :=
  match x with
  | 0 => .rook
  | 1 => .knight
  | 2 => .bishop
  | 3 => .queen
  | 4 => .king
  | 5 => .bishop
  | 6 => .knight
  | 7 => .rook
  | _ => .rook

/-- The standard initial setup of `createPieces()`: black back rank at z = 0,
black pawns at z = 1, white pawns at z = 6, white back rank at z = 7. -/
def initialBoard : Board := fun z x =>
  match z.val with
  | 0 => some ⟨backRank x.val, .black⟩
  | 1 => some ⟨.pawn, .black⟩
  | 6 => some ⟨.pawn, .white⟩
  | 7 => some ⟨backRank x.val, .white⟩
  | _ => none

/-- The freshly started game (`startup` / `resetGame`). -/
def initialGame : Game :=
  { boardState := initialBoard
    currentPlayer := .white
    moveHistory := []
    captured := fun _ => []
    gameState := .playing
    statusText := .inProgress }

/-- The terminal (promotion) rank of each color: white pawns step towards
rank 0, black pawns towards rank 7. -/
def terminalRank : Color → Int
  | .white => 0
  | .black => 7

/-! ### Concrete positions used as witnesses and counterexamples -/

/-- A mid-game position, black to move, with a pending capture: the black pawn
at (x 4, z 3) can capture the white pawn at (x 3, z 4). -/
def midBoard : Board := fun z x =>
  match z.val, x.val with
  | 7, 4 => some ⟨.king, .white⟩
  | 0, 4 => some ⟨.king, .black⟩
  | 4, 3 => some ⟨.pawn, .white⟩
  | 3, 4 => some ⟨.pawn, .black⟩
  | _, _ => none

/-- The pending capture in `midBoard`: black pawn (x 4, z 3) takes (x 3, z 4). -/
def capMove : Move := ⟨4, 3, 3, 4⟩

/-- `midBoard` as a game state (the white pawn advanced two squares earlier). -/
def midGame : Game :=
  { boardState := midBoard
    currentPlayer := .black
    moveHistory := [⟨⟨3, 6, 3, 4⟩, none, .white⟩]
    captured := fun _ => []
    gameState := .playing
    statusText := .inProgress }

/-- Position refuting the claimed reply enumeration of the search: black to
move; after black plays rook (x 5, z 3) → (x 0, z 3), white is in check from
the rook down file x = 0. -/
def cbBoard : Board := fun z x =>
  match z.val, x.val with
  | 0, 0 => some ⟨.king, .white⟩
  | 4, 4 => some ⟨.knight, .white⟩
  | 3, 5 => some ⟨.rook, .black⟩
  | 5, 2 => some ⟨.bishop, .black⟩
  | 7, 7 => some ⟨.king, .black⟩
  | _, _ => none

/-- The checking rook move in `cbBoard`. -/
def cbMove : Move := ⟨5, 3, 0, 3⟩

/-- A board with two lone kings. -/
def tinyBoard : Board := fun z x =>
  match z.val, x.val with
  | 0, 0 => some ⟨.king, .white⟩
  | 7, 7 => some ⟨.king, .black⟩
  | _, _ => none

/-- `tinyBoard` as a game, white to move. -/
def tinyGame : Game :=
  { boardState := tinyBoard
    currentPlayer := .white
    moveHistory := []
    captured := fun _ => []
    gameState := .playing
    statusText := .inProgress }

/-- Black is checkmated in the corner: queen (x 1, z 1) guarded by the white
king (x 2, z 2). -/
def mateBoard : Board := fun z x =>
  match z.val, x.val with
  | 0, 0 => some ⟨.king, .black⟩
  | 1, 1 => some ⟨.queen, .white⟩
  | 2, 2 => some ⟨.king, .white⟩
  | _, _ => none

/-- `mateBoard` as a game, black to move. -/
def mateGame : Game :=
  { boardState := mateBoard
    currentPlayer := .black
    moveHistory := []
    captured := fun _ => []
    gameState := .playing
    statusText := .inProgress }

/-- A white pawn one step from promotion. -/
def promoBoard : Board := fun z x =>
  match z.val, x.val with
  | 1, 0 => some ⟨.pawn, .white⟩
  | 7, 7 => some ⟨.king, .white⟩
  | 0, 5 => some ⟨.king, .black⟩
  | _, _ => none

/-- The promoting pawn push in `promoBoard`. -/
def promoMove : Move := ⟨0, 1, 0, 0⟩

/-- `promoBoard` as a game, white to move. -/
def promoGame : Game :=
  { boardState := promoBoard
    currentPlayer := .white
    moveHistory := []
    captured := fun _ => []
    gameState := .playing
    statusText := .inProgress }

/-- The empty board. -/
def kinglessBoard : Board := fun _ _ => none

/-- A game with a one-entry history (white moved a pawn from (4,6) to (4,5)). -/
def histGame : Game :=
  { boardState := boardSet (boardSet initialBoard 6 4 none) 5 4 (some ⟨.pawn, .white⟩)
    currentPlayer := .black
    moveHistory := [⟨⟨4, 6, 4, 5⟩, none, .white⟩]
    captured := fun _ => []
    gameState := .playing
    statusText := .inProgress }

/-! ### Board access lemmas -/

theorem boardGet_coe (bs : Board) (z x : Fin 8) :
    boardGet bs (z : Int) (x : Int) = bs z x := by
  have hz := z.isLt
  have hx := x.isLt
  unfold boardGet
  rw [dif_pos ⟨by omega, by omega⟩, dif_pos ⟨by omega, by omega⟩]
  congr 1

theorem boardGet_set_self (bs : Board) (z x : Int) (v : Option Piece)
    (hz : 0 ≤ z ∧ z < 8) (hx : 0 ≤ x ∧ x < 8) :
    boardGet (boardSet bs z x v) z x = v := by
  unfold boardGet boardSet
  rw [dif_pos hz, dif_pos hx,
    if_pos ⟨Int.toNat_of_nonneg hz.1, Int.toNat_of_nonneg hx.1⟩]

theorem boardGet_set_of_ne (bs : Board) (z x z' x' : Int) (v : Option Piece)
    (h : ¬(z' = z ∧ x' = x)) :
    boardGet (boardSet bs z x v) z' x' = boardGet bs z' x' := by
  unfold boardGet boardSet
  by_cases hz : 0 ≤ z' ∧ z' < 8
  · by_cases hx : 0 ≤ x' ∧ x' < 8
    · rw [dif_pos hz, dif_pos hx, dif_pos hz, dif_pos hx, if_neg]
      intro hc
      have h1 : (z'.toNat : Int) = z := hc.1
      have h2 : (x'.toNat : Int) = x := hc.2
      exact h ⟨by omega, by omega⟩
    · rw [dif_pos hz, dif_neg hx, dif_pos hz, dif_neg hx]
  · rw [dif_neg hz, dif_neg hz]

theorem boardGet_eq_some_bounds (bs : Board) (z x : Int) (p : Piece)
    (h : boardGet bs z x = some p) : (0 ≤ z ∧ z < 8) ∧ (0 ≤ x ∧ x < 8) := by
  unfold boardGet at h
  by_cases hz : 0 ≤ z ∧ z < 8
  · by_cases hx : 0 ≤ x ∧ x < 8
    · exact ⟨hz, hx⟩
    · rw [dif_pos hz, dif_neg hx] at h
      exact absurd h (by simp)
  · rw [dif_neg hz] at h
    exact absurd h (by simp)

theorem cloneBoard_eq (bs : Board) : cloneBoard bs = bs := by
  funext z x
  unfold cloneBoard
  cases bs z x with
  | none => rfl
  | some p => rfl

theorem boardGet_of_bounds (bs : Board) (z x : Int)
    (hz : 0 ≤ z ∧ z < 8) (hx : 0 ≤ x ∧ x < 8) :
    boardGet bs z x = bs ⟨z.toNat, by omega⟩ ⟨x.toNat, by omega⟩ := by
  unfold boardGet
  rw [dif_pos hz, dif_pos hx]

theorem mem_allSquares (z x : Int) :
    (z, x) ∈ allSquares ↔ (0 ≤ z ∧ z < 8) ∧ (0 ≤ x ∧ x < 8) := by
  unfold allSquares
  rw [List.mem_flatMap]
  constructor
  · rintro ⟨a, ha, hm⟩
    rw [List.mem_map] at hm
    obtain ⟨b, hb, heq⟩ := hm
    rw [List.mem_range] at ha hb
    rw [Prod.mk.injEq] at heq
    obtain ⟨h1, h2⟩ := heq
    constructor <;> constructor <;> omega
  · rintro ⟨⟨hz0, hz8⟩, hx0, hx8⟩
    refine ⟨z.toNat, by rw [List.mem_range]; omega, ?_⟩
    rw [List.mem_map]
    refine ⟨x.toNat, by rw [List.mem_range]; omega, ?_⟩
    rw [Prod.mk.injEq]
    constructor <;> omega

/-- If no cell holds `player`'s king, the king-locating scan comes back empty. -/
theorem findKing_eq_none (bs : Board) (player : Color)
    (h : ∀ z x : Fin 8, bs z x ≠ some ⟨.king, player⟩) :
    findKing bs player = none := by
  unfold findKing
  have key : ∀ (l : List (Int × Int)) (acc : Option (Int × Int)),
      (∀ s ∈ l, boardGet bs s.1 s.2 ≠ some ⟨.king, player⟩) →
      l.foldl (fun acc s => if boardGet bs s.1 s.2 = some ⟨.king, player⟩
        then some (s.2, s.1) else acc) acc = acc := by
    intro l
    induction l with
    | nil => intro acc _; rfl
    | cons a t ih =>
      intro acc hl
      simp only [List.foldl_cons]
      rw [if_neg (hl a (by simp))]
      exact ih acc fun s hs => hl s (by simp [hs])
  apply key
  rintro ⟨z, x⟩ hs
  rw [mem_allSquares] at hs
  rw [boardGet_of_bounds bs z x hs.1 hs.2]
  exact h _ _

/-! ### Component lemmas for the state transformers -/

theorem evaluateGameState_boardState (g : Game) :
    (evaluateGameState g).boardState = g.boardState := by
  simp only [evaluateGameState]
  split <;> rfl

theorem evaluateGameState_currentPlayer (g : Game) :
    (evaluateGameState g).currentPlayer = g.currentPlayer := by
  simp only [evaluateGameState]
  split <;> rfl

theorem evaluateGameState_moveHistory (g : Game) :
    (evaluateGameState g).moveHistory = g.moveHistory := by
  simp only [evaluateGameState]
  split <;> rfl

theorem evaluateGameState_captured (g : Game) :
    (evaluateGameState g).captured = g.captured := by
  simp only [evaluateGameState]
  split <;> rfl

/-- `performMove` unfolded, given the occupant of the from-square. -/
theorem performMove_eq (g : Game) (m : Move) (fromP : Piece)
    (h : boardGet g.boardState m.fromZ m.fromX = some fromP) :
    performMove g m =
      evaluateGameState
        { g with
          boardState :=
            (if fromP.type = .pawn ∧ (m.toZ = 0 ∨ m.toZ = 7) then
              boardSet
                (boardSet (boardSet g.boardState m.toZ m.toX (some ⟨fromP.type, fromP.color⟩))
                  m.fromZ m.fromX none)
                m.toZ m.toX (some ⟨.queen, fromP.color⟩)
            else
              boardSet (boardSet g.boardState m.toZ m.toX (some ⟨fromP.type, fromP.color⟩))
                m.fromZ m.fromX none)
          currentPlayer := g.currentPlayer.other
          moveHistory :=
            { move := m, captured := boardGet g.boardState m.toZ m.toX
              mover := g.currentPlayer } :: g.moveHistory
          captured :=
            match boardGet g.boardState m.toZ m.toX with
            | some t => fun c =>
                if c = g.currentPlayer then t.type :: g.captured c else g.captured c
            | none => g.captured } := by
  unfold performMove
  rw [h]

/-- `undoMove` unfolded, given the popped history entry. -/
theorem undoMove_cons (g : Game) (last : HistEntry) (rest : List HistEntry)
    (h : g.moveHistory = last :: rest) :
    undoMove g =
      { boardState :=
          (match last.captured with
            | some cap =>
              boardSet
                (boardSet
                  (boardSet g.boardState last.move.fromZ last.move.fromX
                    (boardGet g.boardState last.move.toZ last.move.toX))
                  last.move.toZ last.move.toX none)
                last.move.toZ last.move.toX (some cap)
            | none =>
              boardSet
                (boardSet g.boardState last.move.fromZ last.move.fromX
                  (boardGet g.boardState last.move.toZ last.move.toX))
                last.move.toZ last.move.toX none)
        currentPlayer := last.mover
        moveHistory := rest
        captured :=
          (match last.captured with
            | some _ => fun c => if c = last.mover then (g.captured c).tail else g.captured c
            | none => g.captured)
        gameState := .playing
        statusText := .inProgress } := by
  unfold undoMove
  rw [h]

theorem Game.ext' (a c : Game)
    (h1 : a.boardState = c.boardState)
    (h2 : a.currentPlayer = c.currentPlayer)
    (h3 : a.moveHistory = c.moveHistory)
    (h4 : a.captured = c.captured)
    (h5 : a.gameState = c.gameState)
    (h6 : a.statusText = c.statusText) : a = c := by
  cases a
  cases c
  simp only at h1 h2 h3 h4 h5 h6
  subst h1 h2 h3 h4 h5 h6
  rfl

/-- Moving a piece off its square and back (with the capture, if any,
re-created on the vacated square) restores the board exactly, as long as the
move is not a promotion and its endpoints differ. -/
theorem undo_board_restore (b : Board) (m : Move) (p : Piece)
    (hp : boardGet b m.fromZ m.fromX = some p)
    (hne : ¬(m.toZ = m.fromZ ∧ m.toX = m.fromX))
    (htZ : 0 ≤ m.toZ ∧ m.toZ < 8) (htX : 0 ≤ m.toX ∧ m.toX < 8) :
    (match boardGet b m.toZ m.toX with
      | some cap =>
        boardSet
          (boardSet
            (boardSet (boardSet (boardSet b m.toZ m.toX (some ⟨p.type, p.color⟩))
                m.fromZ m.fromX none)
              m.fromZ m.fromX
              (boardGet (boardSet (boardSet b m.toZ m.toX (some ⟨p.type, p.color⟩))
                m.fromZ m.fromX none) m.toZ m.toX))
            m.toZ m.toX none)
          m.toZ m.toX (some cap)
      | none =>
        boardSet
          (boardSet
            (boardSet (boardSet b m.toZ m.toX (some ⟨p.type, p.color⟩))
              m.fromZ m.fromX none)
            m.fromZ m.fromX
            (boardGet (boardSet (boardSet b m.toZ m.toX (some ⟨p.type, p.color⟩))
              m.fromZ m.fromX none) m.toZ m.toX))
          m.toZ m.toX none) = b := by
  have hmid : boardGet (boardSet (boardSet b m.toZ m.toX (some ⟨p.type, p.color⟩))
      m.fromZ m.fromX none) m.toZ m.toX = some ⟨p.type, p.color⟩ := by
    rw [boardGet_set_of_ne _ _ _ _ _ _ hne, boardGet_set_self _ _ _ _ htZ htX]
  rw [hmid]
  cases ht : boardGet b m.toZ m.toX with
  | none =>
    funext zi xi
    simp only [boardSet]
    by_cases h2 : ((zi : Int) = m.toZ ∧ (xi : Int) = m.toX)
    · rw [if_pos h2]
      have hb : boardGet b (zi : Int) (xi : Int) = none := by
        rw [h2.1, h2.2]; exact ht
      rw [boardGet_coe] at hb
      exact hb.symm
    · rw [if_neg h2]
      by_cases h3 : ((zi : Int) = m.fromZ ∧ (xi : Int) = m.fromX)
      · rw [if_pos h3]
        have hb : boardGet b (zi : Int) (xi : Int) = some p := by
          rw [h3.1, h3.2]; exact hp
        rw [boardGet_coe] at hb
        exact hb.symm
      · rw [if_neg h3, if_neg h3, if_neg h2]
  | some t =>
    funext zi xi
    simp only [boardSet]
    by_cases h2 : ((zi : Int) = m.toZ ∧ (xi : Int) = m.toX)
    · rw [if_pos h2]
      have hb : boardGet b (zi : Int) (xi : Int) = some t := by
        rw [h2.1, h2.2]; exact ht
      rw [boardGet_coe] at hb
      exact hb.symm
    · rw [if_neg h2, if_neg h2]
      by_cases h3 : ((zi : Int) = m.fromZ ∧ (xi : Int) = m.fromX)
      · rw [if_pos h3]
        have hb : boardGet b (zi : Int) (xi : Int) = some p := by
          rw [h3.1, h3.2]; exact hp
        rw [boardGet_coe] at hb
        exact hb.symm
      · rw [if_neg h3, if_neg h3, if_neg h2]

/-- Pushing a captured type onto the mover's list and popping it again is the
identity. -/
theorem undo_captured_restore (cap : Color → List PieceType) (cp : Color) (t : Piece) :
    (fun c => if c = cp then
        ((fun c => if c = cp then t.type :: cap c else cap c) c).tail
      else (fun c => if c = cp then t.type :: cap c else cap c) c) = cap := by
  funext c
  by_cases h : c = cp <;> simp [h]

/-- C2 helper: performing a non-promoting move from an occupied square and
undoing it restores the exact engine state, provided the game was in
progress. -/
theorem perform_undo (g : Game) (m : Move) (p : Piece)
    (hp : boardGet g.boardState m.fromZ m.fromX = some p)
    (hne : ¬(m.toZ = m.fromZ ∧ m.toX = m.fromX))
    (hpromo : ¬(p.type = .pawn ∧ (m.toZ = 0 ∨ m.toZ = 7)))
    (htZ : 0 ≤ m.toZ ∧ m.toZ < 8) (htX : 0 ≤ m.toX ∧ m.toX < 8)
    (hphase : g.gameState = .playing) (hstatus : g.statusText = .inProgress) :
    undoMove (performMove g m) = g := by
  have hEb : (performMove g m).boardState =
      boardSet (boardSet g.boardState m.toZ m.toX (some ⟨p.type, p.color⟩))
        m.fromZ m.fromX none := by
    rw [performMove_eq g m p hp, evaluateGameState_boardState]
    exact if_neg hpromo
  have hEh : (performMove g m).moveHistory =
      { move := m, captured := boardGet g.boardState m.toZ m.toX
        mover := g.currentPlayer } :: g.moveHistory := by
    rw [performMove_eq g m p hp, evaluateGameState_moveHistory]
  have hEc : (performMove g m).captured =
      (match boardGet g.boardState m.toZ m.toX with
        | some t => fun c =>
            if c = g.currentPlayer then t.type :: g.captured c else g.captured c
        | none => g.captured) := by
    rw [performMove_eq g m p hp, evaluateGameState_captured]
  rw [undoMove_cons (performMove g m) _ _ hEh]
  refine Game.ext' _ _ ?_ ?_ ?_ ?_ ?_ ?_
  · simp only [hEb]
    exact undo_board_restore g.boardState m p hp hne htZ htX
  · rfl
  · rfl
  · simp only [hEc]
    cases ht : boardGet g.boardState m.toZ m.toX with
    | none => rfl
    | some t => exact undo_captured_restore g.captured g.currentPlayer t
  · exact hphase.symm
  · exact hstatus.symm

theorem isLegalMove_destruct (bs : Board) (m : Move) (player : Color)
    (h : isLegalMove bs m player = true) :
    ∃ p, boardGet bs m.fromZ m.fromX = some p ∧ p.color = player ∧
      isPseudoLegal m bs false = true := by
  unfold isLegalMove at h
  cases hb : boardGet bs m.fromZ m.fromX with
  | none =>
    rw [hb] at h
    exact absurd h (by simp)
  | some p =>
    rw [hb] at h
    dsimp only at h
    by_cases hc : p.color = player
    · rw [if_pos hc] at h
      exact ⟨p, rfl, hc, ((Bool.and_eq_true _ _).mp h).1⟩
    · rw [if_neg hc] at h
      exact absurd h (by simp)

/-- A pseudo-legal move (outside attack-probe mode) never has equal endpoints:
the from-square's own piece would be a same-color target. -/
theorem isPseudoLegal_ne (bs : Board) (m : Move) (p : Piece)
    (hb : boardGet bs m.fromZ m.fromX = some p)
    (h : isPseudoLegal m bs false = true) :
    ¬(m.toZ = m.fromZ ∧ m.toX = m.fromX) := by
  rintro ⟨hz, hx⟩
  unfold isPseudoLegal at h
  rw [hb] at h
  simp only [hz, hx, hb] at h
  simp at h

/-- A pseudo-legal pawn move advances one rank in the pawn's direction, or two
from the home rank. -/
theorem isPseudoLegal_pawn_dz (bs : Board) (m : Move) (p : Piece)
    (hb : boardGet bs m.fromZ m.fromX = some p)
    (hpt : p.type = .pawn)
    (h : isPseudoLegal m bs false = true) :
    m.toZ - m.fromZ = (if p.color = .white then (-1 : Int) else 1) ∨
    (m.toZ - m.fromZ = 2 * (if p.color = .white then (-1 : Int) else 1) ∧
      m.fromZ = (if p.color = .white then (6 : Int) else 1)) := by
  unfold isPseudoLegal at h
  rw [hb] at h
  dsimp only at h
  rw [hpt] at h
  dsimp only at h
  cases hpc : p.color with
  | white =>
    rw [hpc] at h
    simp at h ⊢
    obtain ⟨-, h2⟩ := h
    by_cases hdx : m.toX - m.fromX = 0
    · rw [if_pos hdx] at h2
      rcases h2 with h3 | h3
      · exact Or.inl h3.1
      · exact Or.inr ⟨by omega, h3.2.1⟩
    · rw [if_neg hdx] at h2
      exact Or.inl h2.1.2
  | black =>
    rw [hpc] at h
    simp at h ⊢
    obtain ⟨-, h2⟩ := h
    by_cases hdx : m.toX - m.fromX = 0
    · rw [if_pos hdx] at h2
      rcases h2 with h3 | h3
      · exact Or.inl h3.1
      · exact Or.inr ⟨by omega, h3.2.1⟩
    · rw [if_neg hdx] at h2
      exact Or.inl h2.1.2

/-- In the initial position, white pawns occupy exactly rank 6. -/
theorem initial_white_pawn_row :
    ∀ z x : Fin 8, initialBoard z x = some ⟨.pawn, .white⟩ → (z : Int) = 6 := by
  decide

/-! ### Claim theorems -/

/-- C1: for every move whose from- and to-squares are on the 8×8 board and
every color `player`, `isLegalMove` returns true iff (a) a piece of color
`player` occupies the from-square of the live board, (b) the move is
pseudo-legal on the live board, and (c) applying the move on a copy of the
board leaves `player`'s king not attacked on that copy. -/
theorem isLegalMove_characterization (bs : Board) (m : Move) (player : Color)
    (hfZ : 0 ≤ m.fromZ ∧ m.fromZ < 8) (hfX : 0 ≤ m.fromX ∧ m.fromX < 8)
    (htZ : 0 ≤ m.toZ ∧ m.toZ < 8) (htX : 0 ≤ m.toX ∧ m.toX < 8) :
    isLegalMove bs m player = true ↔
      (∃ p, boardGet bs m.fromZ m.fromX = some p ∧ p.color = player) ∧
      isPseudoLegal m bs false = true ∧
      isKingInCheck (applyMoveOnClone (cloneBoard bs) m) player = false := by
  unfold isLegalMove
  cases h : boardGet bs m.fromZ m.fromX with
  | none => simp [h]
  | some p =>
    by_cases hc : p.color = player
    · simp [h, hc, Bool.and_eq_true, Bool.not_eq_true']
    · simp [h, hc]

theorem isLegalMove_characterization_witness :
    ((0:Int) ≤ 6 ∧ (6:Int) < 8) ∧ ((0:Int) ≤ 4 ∧ (4:Int) < 8) ∧
    ((0:Int) ≤ 4 ∧ (4:Int) < 8) ∧
    (isLegalMove initialBoard ⟨4, 6, 4, 4⟩ .white = true ↔
      (∃ p, boardGet initialBoard (6:Int) (4:Int) = some p ∧ p.color = .white) ∧
      isPseudoLegal ⟨4, 6, 4, 4⟩ initialBoard false = true ∧
      isKingInCheck (applyMoveOnClone (cloneBoard initialBoard) ⟨4, 6, 4, 4⟩) .white = false) :=
  ⟨by decide, by decide, by decide,
    isLegalMove_characterization initialBoard ⟨4, 6, 4, 4⟩ .white
      (by decide) (by decide) (by decide) (by decide)⟩

/-- C4: after the turn flip, if the new side to move has no legal move the
phase becomes ended — checkmate of that side when its king is attacked,
stalemate otherwise; if it has a legal move the phase remains in-progress. -/
theorem evaluateGameState_classification (g : Game) :
    (allLegalMovesFor g.boardState g.currentPlayer = [] →
      (evaluateGameState g).gameState = .ended ∧
      (evaluateGameState g).statusText =
        (if isKingInCheck g.boardState g.currentPlayer then
          GStatus.checkmated g.currentPlayer
        else GStatus.stalemate)) ∧
    (allLegalMovesFor g.boardState g.currentPlayer ≠ [] → g.gameState = .playing →
      (evaluateGameState g).gameState = .playing ∧
      (evaluateGameState g).statusText = .inProgress) := by
  constructor
  · intro h
    simp only [evaluateGameState]
    rw [h]
    simp
  · intro h hp
    simp only [evaluateGameState]
    rw [if_neg (by simpa using h)]
    exact ⟨hp, rfl⟩

theorem evaluateGameState_classification_witness :
    (allLegalMovesFor mateGame.boardState mateGame.currentPlayer = [] ∧
      (evaluateGameState mateGame).gameState = .ended ∧
      (evaluateGameState mateGame).statusText =
        (if isKingInCheck mateGame.boardState mateGame.currentPlayer then
          GStatus.checkmated mateGame.currentPlayer
        else GStatus.stalemate)) ∧
    (allLegalMovesFor tinyGame.boardState tinyGame.currentPlayer ≠ [] ∧
      tinyGame.gameState = .playing ∧
      (evaluateGameState tinyGame).gameState = .playing ∧
      (evaluateGameState tinyGame).statusText = .inProgress) :=
  ⟨⟨by decide, (evaluateGameState_classification mateGame).1 (by decide)⟩,
    ⟨by decide, rfl,
      (evaluateGameState_classification tinyGame).2 (by decide) rfl⟩⟩

/-- C5: a legal pawn move to the terminal rank of the pawn's color leaves a
queen of the mover's color on the destination square, both in simulation
(`applyMoveOnClone`) and on the live board (`performMove`). -/
theorem promotion_yields_queen (g : Game) (m : Move) (p : Piece)
    (hp : boardGet g.boardState m.fromZ m.fromX = some p)
    (hpawn : p.type = .pawn)
    (hterm : m.toZ = terminalRank p.color)
    (htX : 0 ≤ m.toX ∧ m.toX < 8)
    (hleg : isLegalMove g.boardState m p.color = true) :
    boardGet (applyMoveOnClone g.boardState m) m.toZ m.toX = some ⟨.queen, p.color⟩ ∧
    boardGet (performMove g m).boardState m.toZ m.toX = some ⟨.queen, p.color⟩ := by
  have hz : terminalRank p.color = 0 ∨ terminalRank p.color = 7 := by
    cases p.color <;> simp [terminalRank]
  have hcond : p.type = .pawn ∧ (m.toZ = 0 ∨ m.toZ = 7) := ⟨hpawn, by rw [hterm]; exact hz⟩
  have htZ : 0 ≤ m.toZ ∧ m.toZ < 8 := by
    rcases hz with h | h <;> rw [hterm, h] <;> norm_num
  constructor
  · simp only [applyMoveOnClone, hp]
    rw [if_pos hcond]
    exact boardGet_set_self _ _ _ _ htZ htX
  · rw [performMove_eq g m p hp, evaluateGameState_boardState]
    simp only
    rw [if_pos hcond]
    exact boardGet_set_self _ _ _ _ htZ htX

theorem promotion_yields_queen_witness :
    boardGet promoGame.boardState promoMove.fromZ promoMove.fromX = some ⟨.pawn, .white⟩ ∧
    Piece.type ⟨.pawn, .white⟩ = .pawn ∧
    promoMove.toZ = terminalRank (Piece.color ⟨.pawn, .white⟩) ∧
    ((0:Int) ≤ promoMove.toX ∧ promoMove.toX < 8) ∧
    isLegalMove promoGame.boardState promoMove (Piece.color ⟨.pawn, .white⟩) = true ∧
    (boardGet (applyMoveOnClone promoGame.boardState promoMove) promoMove.toZ promoMove.toX =
        some ⟨.queen, .white⟩ ∧
      boardGet (performMove promoGame promoMove).boardState promoMove.toZ promoMove.toX =
        some ⟨.queen, .white⟩) :=
  ⟨by decide, by decide, by decide, by decide, by decide,
    promotion_yields_queen promoGame promoMove ⟨.pawn, .white⟩
      (by decide) (by decide) (by decide) (by decide) (by decide)⟩

/-- C6: an attempted move that fails the legality check is rejected — the
returned state is the input state unchanged (board, turn, history, captured
sets, phase), and only a Boolean rejection is produced. -/
theorem rejected_move_unchanged (g : Game) (m : Move)
    (h : isLegalMove g.boardState m g.currentPlayer = false) :
    attemptMove g m = (false, g) := by
  unfold attemptMove
  by_cases hg : g.gameState ≠ .playing
  · rw [if_pos hg]
  · rw [if_neg hg, if_neg (by simp [h])]

theorem rejected_move_unchanged_witness :
    isLegalMove initialGame.boardState ⟨0, 0, 0, 1⟩ initialGame.currentPlayer = false ∧
    attemptMove initialGame ⟨0, 0, 0, 1⟩ = (false, initialGame) :=
  ⟨by decide, rejected_move_unchanged initialGame ⟨0, 0, 0, 1⟩ (by decide)⟩

/-- C7: if no king of the queried color is on the board, `isKingInCheck`
returns the defensive default `true` (and never faults — it is a total
function). -/
theorem kingless_in_check (bs : Board) (player : Color)
    (h : ∀ z x : Fin 8, bs z x ≠ some ⟨.king, player⟩) :
    isKingInCheck bs player = true := by
  unfold isKingInCheck
  rw [findKing_eq_none bs player h]

theorem kingless_in_check_witness :
    (∀ z x : Fin 8, kinglessBoard z x ≠ some ⟨.king, .white⟩) ∧
    isKingInCheck kinglessBoard .white = true :=
  ⟨by decide, kingless_in_check kinglessBoard .white (by decide)⟩

/-- C8: `undoMove` on an empty history changes nothing; on a non-empty history
it sets the side to move to the popped entry's mover and unconditionally (for
every state, in particular when the restored position is itself dead) resets
the phase to playing / 'Game in Progress'. -/
theorem undoMove_empty_and_phase (g : Game) :
    (g.moveHistory = [] → undoMove g = g) ∧
    (∀ last rest, g.moveHistory = last :: rest →
      (undoMove g).currentPlayer = last.mover ∧
      (undoMove g).gameState = .playing ∧
      (undoMove g).statusText = .inProgress) := by
  constructor
  · intro h
    unfold undoMove
    rw [h]
  · intro last rest h
    rw [undoMove_cons g last rest h]
    exact ⟨rfl, rfl, rfl⟩

theorem undoMove_empty_and_phase_witness :
    (initialGame.moveHistory = [] ∧ undoMove initialGame = initialGame) ∧
    (histGame.moveHistory = [⟨⟨4, 6, 4, 5⟩, none, .white⟩] ∧
      (undoMove histGame).currentPlayer = .white ∧
      (undoMove histGame).gameState = .playing ∧
      (undoMove histGame).statusText = .inProgress) :=
  ⟨⟨rfl, (undoMove_empty_and_phase initialGame).1 rfl⟩,
    ⟨rfl, (undoMove_empty_and_phase histGame).2 ⟨⟨4, 6, 4, 5⟩, none, .white⟩ [] rfl⟩⟩

/-- C9: the search is deterministic — the selected move is a pure function of
the board contents (the automated side is fixed to black in the source, so
equal boards with the same side to move yield the same move on every
invocation; there is no randomness). -/
theorem bestAIMove_deterministic (b1 b2 : Board)
    (h : ∀ z x : Fin 8, b1 z x = b2 z x) :
    bestAIMove b1 = bestAIMove b2 := by
  have hb : b1 = b2 := funext fun z => funext fun x => h z x
  rw [hb]

theorem bestAIMove_deterministic_witness :
    (∀ z x : Fin 8, tinyBoard z x = tinyBoard z x) ∧
    bestAIMove tinyBoard = bestAIMove tinyBoard :=
  ⟨fun _ _ => rfl, bestAIMove_deterministic tinyBoard tinyBoard fun _ _ => rfl⟩


/-- C2: every legal move from the initial position, performed and then undone,
restores the board contents, side to move, both captured lists, and the game
phase exactly; likewise for the pending capture in the mid-game position
`midGame`. -/
theorem perform_undo_roundtrip :
    (∀ m : Move,
      (0 ≤ m.fromZ ∧ m.fromZ < 8) → (0 ≤ m.fromX ∧ m.fromX < 8) →
      (0 ≤ m.toZ ∧ m.toZ < 8) → (0 ≤ m.toX ∧ m.toX < 8) →
      isLegalMove initialBoard m .white = true →
      undoMove (performMove initialGame m) = initialGame) ∧
    ((boardGet midGame.boardState capMove.toZ capMove.toX).isSome = true ∧
      isLegalMove midGame.boardState capMove midGame.currentPlayer = true ∧
      undoMove (performMove midGame capMove) = midGame) := by
  constructor
  · intro m hfZ hfX htZ htX hleg
    obtain ⟨p, hp, hcol, hpseudo⟩ := isLegalMove_destruct initialBoard m .white hleg
    have hne := isPseudoLegal_ne initialBoard m p hp hpseudo
    have hpromo : ¬(p.type = .pawn ∧ (m.toZ = 0 ∨ m.toZ = 7)) := by
      rintro ⟨hpt, hor⟩
      have hdz := isPseudoLegal_pawn_dz initialBoard m p hp hpt hpseudo
      rw [hcol] at hdz
      simp at hdz
      have hpw : p = ⟨.pawn, .white⟩ := by
        cases p
        simp only at hpt hcol
        rw [hpt, hcol]
      have h6 : m.fromZ = 6 := by
        have hbnd := boardGet_eq_some_bounds _ _ _ _ hp
        rw [boardGet_of_bounds _ _ _ hbnd.1 hbnd.2, hpw] at hp
        have h := initial_white_pawn_row _ _ hp
        simp only [Fin.val_mk] at h
        omega
      omega
    exact perform_undo initialGame m p hp hne hpromo htZ htX rfl rfl
  · refine ⟨by decide, by decide, ?_⟩
    exact perform_undo midGame capMove ⟨.pawn, .black⟩
      (by decide) (by decide) (by decide) (by decide) (by decide) rfl rfl

theorem perform_undo_roundtrip_witness :
    ((0:Int) ≤ 6 ∧ (6:Int) < 8) ∧ ((0:Int) ≤ 4 ∧ (4:Int) < 8) ∧
    isLegalMove initialBoard ⟨4, 6, 4, 4⟩ .white = true ∧
    undoMove (performMove initialGame ⟨4, 6, 4, 4⟩) = initialGame :=
  ⟨by decide, by decide, by decide,
    (perform_undo_roundtrip.1 ⟨4, 6, 4, 4⟩
      (by decide) (by decide) (by decide) (by decide) (by decide))⟩


/-- C3 evidence: in `cbBoard` (black to move) the checking rook move `cbMove`
is legal for black; the source's scoring (`aiScore`, faithful to
`makeBestAIMove`) gives it −180, while the score the claim describes —
material after the opponent's best reply among the replies that are legal on
the **resulting** position — is −510.  The gap exists because
`makeBestAIMove` filters the opponent's replies through `isLegalMove`, which
reads the live pre-move `boardState`, not the simulated clone, so replies that
ignore the new check (here the white knight capturing the bishop on (x 2, z 5))
are admitted. -/
theorem aiScore_not_as_claimed :
    isLegalMove cbBoard cbMove .black = true ∧
    aiScore cbBoard cbMove = -180 ∧
    (match (allLegalMovesFor (applyMoveOnClone (cloneBoard cbBoard) cbMove) .white).map
        (fun om => evaluateMaterial
          (applyMoveOnClone (cloneBoard (applyMoveOnClone (cloneBoard cbBoard) cbMove)) om)) with
      | [] => evaluateMaterial (applyMoveOnClone (cloneBoard cbBoard) cbMove)
      | v :: vs => vs.foldl max v) = -510 :=
  ⟨by decide, by decide, by decide⟩


/-- Every destination emitted by the sliding-piece walk lies on the ray, with
all earlier ray cells inside the board and empty, and is itself inside and
empty-or-enemy. -/
theorem rayWalk_sound (bs : Board) (color : Color) (dx dz : Int) :
    ∀ (fuel : Nat) (nx nz tX tZ : Int),
      (tX, tZ) ∈ rayWalk bs color dx dz fuel nx nz →
      ∃ k : Nat, tX = nx + k * dx ∧ tZ = nz + k * dz ∧
        (∀ j : Nat, j < k → isInside (nx + j * dx) (nz + j * dz) = true ∧
          boardGet bs (nz + j * dz) (nx + j * dx) = none) ∧
        isInside tX tZ = true ∧
        (∀ q, boardGet bs tZ tX = some q → q.color ≠ color) := by
  intro fuel
  induction fuel with
  | zero =>
    intro nx nz tX tZ hmem
    simp [rayWalk] at hmem
  | succ f ih =>
    intro nx nz tX tZ hmem
    unfold rayWalk at hmem
    by_cases hin : isInside nx nz = true
    · rw [if_pos hin] at hmem
      cases hq : boardGet bs nz nx with
      | none =>
        rw [hq] at hmem
        dsimp only at hmem
        rcases List.mem_cons.mp hmem with heq | hrec
        · obtain ⟨h1, h2⟩ := Prod.mk.injEq .. ▸ heq
          refine ⟨0, by simp [h1], by simp [h2], fun j hj => absurd hj (by omega), ?_, ?_⟩
          · rw [h1, h2]
            exact hin
          · intro q hq2
            rw [h1, h2, hq] at hq2
            exact absurd hq2 (by simp)
        · obtain ⟨k, hk1, hk2, hmid, hintgt, htgt⟩ := ih (nx + dx) (nz + dz) tX tZ hrec
          refine ⟨k + 1, by push_cast; push_cast at hk1; rw [hk1]; ring,
            by push_cast; push_cast at hk2; rw [hk2]; ring, ?_, hintgt, htgt⟩
          intro j hj
          have harg1 : ∀ j' : Nat, nx + (↑(j' + 1) : Int) * dx = nx + dx + (↑j' : Int) * dx := by
            intro j'; push_cast; ring
          have harg2 : ∀ j' : Nat, nz + (↑(j' + 1) : Int) * dz = nz + dz + (↑j' : Int) * dz := by
            intro j'; push_cast; ring
          cases j with
          | zero => exact ⟨by simpa using hin, by simpa using hq⟩
          | succ j' =>
            have hj' := hmid j' (by omega)
            rw [harg1 j', harg2 j']
            exact hj'
      | some q =>
        rw [hq] at hmem
        dsimp only at hmem
        by_cases hc : q.color ≠ color
        · rw [if_pos hc] at hmem
          have heq := List.mem_singleton.mp hmem
          obtain ⟨h1, h2⟩ := Prod.mk.injEq .. ▸ heq
          refine ⟨0, by simp [h1], by simp [h2], fun j hj => absurd hj (by omega), ?_, ?_⟩
          · rw [h1, h2]
            exact hin
          · intro q' hq2
            rw [h1, h2, hq] at hq2
            cases hq2
            exact hc
        · rw [if_neg hc] at hmem
          simp at hmem
    · rw [if_neg hin] at hmem
      simp at hmem


/-- Conversely, any on-ray cell whose earlier ray cells are inside and empty,
and which is itself inside and empty-or-enemy, is emitted by the walk. -/
theorem rayWalk_complete (bs : Board) (color : Color) (dx dz : Int) :
    ∀ (k fuel : Nat) (nx nz tX tZ : Int), k < fuel →
      tX = nx + k * dx → tZ = nz + k * dz →
      (∀ j : Nat, j ≤ k → isInside (nx + j * dx) (nz + j * dz) = true) →
      (∀ j : Nat, j < k → boardGet bs (nz + j * dz) (nx + j * dx) = none) →
      (∀ q, boardGet bs tZ tX = some q → q.color ≠ color) →
      (tX, tZ) ∈ rayWalk bs color dx dz fuel nx nz := by
  intro k
  induction k with
  | zero =>
    intro fuel nx nz tX tZ hf h1 h2 hins hmids htgt
    simp only [Nat.cast_zero, zero_mul, add_zero] at h1 h2
    subst h1
    subst h2
    obtain ⟨f, rfl⟩ : ∃ f, fuel = f + 1 := ⟨fuel - 1, by omega⟩
    unfold rayWalk
    have hin0 := hins 0 (by omega)
    simp only [Nat.cast_zero, zero_mul, add_zero] at hin0
    rw [if_pos hin0]
    cases hq : boardGet bs tZ tX with
    | none =>
      dsimp only
      exact List.mem_cons_self _ _
    | some q =>
      dsimp only
      have hcq := htgt q hq
      rw [if_pos hcq]
      exact List.mem_singleton.mpr rfl
  | succ k' ihk =>
    intro fuel nx nz tX tZ hf h1 h2 hins hmids htgt
    obtain ⟨f, rfl⟩ : ∃ f, fuel = f + 1 := ⟨fuel - 1, by omega⟩
    unfold rayWalk
    have hin0 := hins 0 (by omega)
    simp only [Nat.cast_zero, zero_mul, add_zero] at hin0
    rw [if_pos hin0]
    have hq0 := hmids 0 (by omega)
    simp only [Nat.cast_zero, zero_mul, add_zero] at hq0
    rw [hq0]
    dsimp only
    have harg1 : ∀ j' : Nat, nx + (↑(j' + 1) : Int) * dx = nx + dx + (↑j' : Int) * dx := by
      intro j'; push_cast; ring
    have harg2 : ∀ j' : Nat, nz + (↑(j' + 1) : Int) * dz = nz + dz + (↑j' : Int) * dz := by
      intro j'; push_cast; ring
    refine List.mem_cons.mpr (Or.inr ?_)
    apply ihk f (nx + dx) (nz + dz) tX tZ (by omega)
    · rw [h1, harg1 k']
    · rw [h2, harg2 k']
    · intro j hj
      have := hins (j + 1) (by omega)
      rw [harg1 j, harg2 j] at this
      exact this
    · intro j hj
      have := hmids (j + 1) (by omega)
      rw [harg1 j, harg2 j] at this
      exact this
    · exact htgt

/-- The path-clearing loop succeeds exactly when the ray cells strictly before
the target are all empty (for a non-degenerate step). -/
theorem pathClearAux_iff (bs : Board) (tX tZ sx sz : Int) (hs : ¬(sx = 0 ∧ sz = 0)) :
    ∀ (k fuel : Nat) (x z : Int), k < fuel →
      tX = x + k * sx → tZ = z + k * sz →
      (pathClearAux bs tX tZ sx sz fuel x z = true ↔
        ∀ j : Nat, j < k → boardGet bs (z + j * sz) (x + j * sx) = none) := by
  intro k
  induction k with
  | zero =>
    intro fuel x z hf h1 h2
    simp only [Nat.cast_zero, zero_mul, add_zero] at h1 h2
    subst h1
    subst h2
    obtain ⟨f, rfl⟩ : ∃ f, fuel = f + 1 := ⟨fuel - 1, by omega⟩
    unfold pathClearAux
    rw [if_pos ⟨rfl, rfl⟩]
    simp
  | succ k' ihk =>
    intro fuel x z hf h1 h2
    obtain ⟨f, rfl⟩ : ∃ f, fuel = f + 1 := ⟨fuel - 1, by omega⟩
    unfold pathClearAux
    have harg1 : ∀ j' : Nat, x + (↑(j' + 1) : Int) * sx = x + sx + (↑j' : Int) * sx := by
      intro j'; push_cast; ring
    have harg2 : ∀ j' : Nat, z + (↑(j' + 1) : Int) * sz = z + sz + (↑j' : Int) * sz := by
      intro j'; push_cast; ring
    have hne : ¬(x = tX ∧ z = tZ) := by
      rintro ⟨hxx, hzz⟩
      have hx0 : ((k' + 1 : Nat) : Int) * sx = 0 := by omega
      have hz0 : ((k' + 1 : Nat) : Int) * sz = 0 := by omega
      rcases mul_eq_zero.mp hx0 with h | hsx
      · exact absurd h (by positivity)
      · rcases mul_eq_zero.mp hz0 with h | hsz
        · exact absurd h (by positivity)
        · exact hs ⟨hsx, hsz⟩
    rw [if_neg hne, Bool.and_eq_true, Option.isNone_iff_eq_none,
      ihk f (x + sx) (z + sz) (by omega) (by rw [h1, harg1 k']) (by rw [h2, harg2 k'])]
    constructor
    · rintro ⟨hq0, hrest⟩ j hj
      cases j with
      | zero => simpa using hq0
      | succ j' =>
        have := hrest j' (by omega)
        rw [harg1 j', harg2 j']
        exact this
    · intro hall
      refine ⟨by simpa using hall 0 (by omega), fun j hj => ?_⟩
      have := hall (j + 1) (by omega)
      rw [harg1 j, harg2 j] at this
      exact this


theorem sign_unit_mul (d : Int) (hd : d = -1 ∨ d = 0 ∨ d = 1) (k : Nat) :
    (((k : Int) + 1) * d).sign = d := by
  rcases hd with rfl | rfl | rfl
  · have h : ((k : Int) + 1) * (-1) = -((k : Int) + 1) := by ring
    rw [h, Int.sign_eq_neg_one_iff_neg]
    omega
  · simp
  · rw [mul_one, Int.sign_eq_one_iff_pos]
    omega

/-- The sliding walk from the square adjacent to `(x, z)` in unit direction
`(d1, d2)` contains an on-board destination exactly when the destination lies
a positive number of steps along that direction, the path between is clear,
and the destination square is empty or enemy-occupied. -/
theorem slider_ray_iff (bs : Board) (color : Color) (x z tX tZ d1 d2 : Int)
    (hsx : 0 ≤ x ∧ x < 8) (hsz : 0 ≤ z ∧ z < 8)
    (htx : 0 ≤ tX ∧ tX < 8) (htz : 0 ≤ tZ ∧ tZ < 8)
    (hd1 : d1 = -1 ∨ d1 = 0 ∨ d1 = 1) (hd2 : d2 = -1 ∨ d2 = 0 ∨ d2 = 1)
    (hd0 : ¬(d1 = 0 ∧ d2 = 0)) :
    ((tX, tZ) ∈ rayWalk bs color d1 d2 8 (x + d1) (z + d2)) ↔
      ((∃ k : Nat, tX - x = ((k : Int) + 1) * d1 ∧ tZ - z = ((k : Int) + 1) * d2) ∧
       isPathClear bs x z tX tZ = true ∧
       (∀ q, boardGet bs tZ tX = some q → q.color ≠ color)) := by
  constructor
  · intro hmem
    obtain ⟨k, hk1, hk2, hmid, hintgt, htgt⟩ :=
      rayWalk_sound bs color d1 d2 8 (x + d1) (z + d2) tX tZ hmem
    have hdx : tX - x = ((k : Int) + 1) * d1 := by rw [hk1]; ring
    have hdz : tZ - z = ((k : Int) + 1) * d2 := by rw [hk2]; ring
    have hklt : k < 16 := by
      rcases hd1 with rfl | rfl | rfl <;> rcases hd2 with rfl | rfl | rfl <;>
        first
        | omega
        | simp at hd0
    refine ⟨⟨k, hdx, hdz⟩, ?_, htgt⟩
    unfold isPathClear
    rw [hdx, hdz, sign_unit_mul d1 hd1 k, sign_unit_mul d2 hd2 k,
      pathClearAux_iff bs tX tZ d1 d2 hd0 k 16 (x + d1) (z + d2) hklt hk1 hk2]
    exact fun j hj => (hmid j hj).2
  · rintro ⟨⟨k, hdx, hdz⟩, hpc, htgt⟩
    have hk1 : tX = x + d1 + (k : Int) * d1 := by
      have h : tX = x + ((k : Int) + 1) * d1 := by omega
      rw [h]; ring
    have hk2 : tZ = z + d2 + (k : Int) * d2 := by
      have h : tZ = z + ((k : Int) + 1) * d2 := by omega
      rw [h]; ring
    have hklt : k < 8 := by
      rcases hd1 with rfl | rfl | rfl <;> rcases hd2 with rfl | rfl | rfl <;>
        first
        | omega
        | simp at hd0
    apply rayWalk_complete bs color d1 d2 k 8 (x + d1) (z + d2) tX tZ hklt hk1 hk2
    · intro j hj
      simp only [isInside, decide_eq_true_eq]
      rcases hd1 with rfl | rfl | rfl <;> rcases hd2 with rfl | rfl | rfl <;>
        first
        | omega
        | simp at hd0
    · intro j hj
      unfold isPathClear at hpc
      rw [hdx, hdz, sign_unit_mul d1 hd1 k, sign_unit_mul d2 hd2 k,
        pathClearAux_iff bs tX tZ d1 d2 hd0 k 16 (x + d1) (z + d2) (by omega) hk1 hk2] at hpc
      exact hpc j hj
    · exact htgt


/-- Membership in the concatenated direction walks, reduced to alignment,
path clearance and target occupancy. -/
theorem slider_flatMap_iff (bs : Board) (pc : Color) (x z tX tZ : Int)
    (hbx : 0 ≤ x ∧ x < 8) (hbz : 0 ≤ z ∧ z < 8)
    (htx : 0 ≤ tX ∧ tX < 8) (htz : 0 ≤ tZ ∧ tZ < 8)
    (dirs : List (Int × Int))
    (hdirs : ∀ d ∈ dirs, (d.1 = -1 ∨ d.1 = 0 ∨ d.1 = 1) ∧
      (d.2 = -1 ∨ d.2 = 0 ∨ d.2 = 1) ∧ ¬(d.1 = 0 ∧ d.2 = 0)) :
    ((tX, tZ) ∈ dirs.flatMap fun d => rayWalk bs pc d.1 d.2 8 (x + d.1) (z + d.2)) ↔
      ((∃ d ∈ dirs, ∃ k : Nat, tX - x = ((k : Int) + 1) * d.1 ∧
          tZ - z = ((k : Int) + 1) * d.2) ∧
        isPathClear bs x z tX tZ = true ∧
        (∀ q, boardGet bs tZ tX = some q → q.color ≠ pc)) := by
  rw [List.mem_flatMap]
  constructor
  · rintro ⟨d, hd, hmem⟩
    obtain ⟨h1, h2, h0⟩ := hdirs d hd
    obtain ⟨⟨k, hk1, hk2⟩, hpc2, htgt⟩ :=
      (slider_ray_iff bs pc x z tX tZ d.1 d.2 hbx hbz htx htz h1 h2 h0).mp hmem
    exact ⟨⟨d, hd, k, hk1, hk2⟩, hpc2, htgt⟩
  · rintro ⟨⟨d, hd, k, hk1, hk2⟩, hpc2, htgt⟩
    obtain ⟨h1, h2, h0⟩ := hdirs d hd
    exact ⟨d, hd,
      (slider_ray_iff bs pc x z tX tZ d.1 d.2 hbx hbz htx htz h1 h2 h0).mpr
        ⟨⟨k, hk1, hk2⟩, hpc2, htgt⟩⟩

/-- A displacement is a positive multiple of a rook direction exactly when it
is axis-aligned and non-zero. -/
theorem rook_align_iff (dxt dzt : Int) :
    (∃ d ∈ rookDirs, ∃ k : Nat, dxt = ((k : Int) + 1) * d.1 ∧
        dzt = ((k : Int) + 1) * d.2) ↔
      (¬(dxt ≠ 0 ∧ dzt ≠ 0) ∧ ¬(dxt = 0 ∧ dzt = 0)) := by
  constructor
  · rintro ⟨d, hd, k, h1, h2⟩
    simp only [rookDirs, List.mem_cons, List.not_mem_nil, or_false] at hd
    rcases hd with rfl | rfl | rfl | rfl <;>
      first
      | omega
      | (dsimp only at h1 h2; omega)
  · rintro ⟨hal, hne⟩
    by_cases hx0 : dxt = 0
    · by_cases hpos : 0 < dzt
      · exact ⟨(0, 1), by simp [rookDirs], (dzt - 1).toNat,
          by first | omega | (dsimp only; omega), by first | omega | (dsimp only; omega)⟩
      · exact ⟨(0, -1), by simp [rookDirs], (-dzt - 1).toNat,
          by first | omega | (dsimp only; omega), by first | omega | (dsimp only; omega)⟩
    · by_cases hpos : 0 < dxt
      · exact ⟨(1, 0), by simp [rookDirs], (dxt - 1).toNat,
          by first | omega | (dsimp only; omega), by first | omega | (dsimp only; omega)⟩
      · exact ⟨(-1, 0), by simp [rookDirs], (-dxt - 1).toNat,
          by first | omega | (dsimp only; omega), by first | omega | (dsimp only; omega)⟩

/-- A displacement is a positive multiple of a bishop direction exactly when it
is diagonal and non-zero. -/
theorem bishop_align_iff (dxt dzt : Int) :
    (∃ d ∈ bishopDirs, ∃ k : Nat, dxt = ((k : Int) + 1) * d.1 ∧
        dzt = ((k : Int) + 1) * d.2) ↔
      (dxt.natAbs = dzt.natAbs ∧ ¬(dxt = 0 ∧ dzt = 0)) := by
  constructor
  · rintro ⟨d, hd, k, h1, h2⟩
    simp only [bishopDirs, List.mem_cons, List.not_mem_nil, or_false] at hd
    rcases hd with rfl | rfl | rfl | rfl <;>
      first
      | omega
      | (dsimp only at h1 h2; omega)
  · rintro ⟨hab, hne⟩
    by_cases hxp : 0 < dxt
    · by_cases hzp : 0 < dzt
      · exact ⟨(1, 1), by simp [bishopDirs], (dxt - 1).toNat,
          by first | omega | (dsimp only; omega), by first | omega | (dsimp only; omega)⟩
      · exact ⟨(1, -1), by simp [bishopDirs], (dxt - 1).toNat,
          by first | omega | (dsimp only; omega), by first | omega | (dsimp only; omega)⟩
    · by_cases hzp : 0 < dzt
      · exact ⟨(-1, 1), by simp [bishopDirs], (dzt - 1).toNat,
          by first | omega | (dsimp only; omega), by first | omega | (dsimp only; omega)⟩
      · exact ⟨(-1, -1), by simp [bishopDirs], (-dxt - 1).toNat,
          by first | omega | (dsimp only; omega), by first | omega | (dsimp only; omega)⟩

/-- A displacement is a positive multiple of a queen direction exactly when it
is axis-aligned or diagonal, and non-zero. -/
theorem queen_align_iff (dxt dzt : Int) :
    (∃ d ∈ queenDirs, ∃ k : Nat, dxt = ((k : Int) + 1) * d.1 ∧
        dzt = ((k : Int) + 1) * d.2) ↔
      ((dxt = 0 ∨ dzt = 0 ∨ dxt.natAbs = dzt.natAbs) ∧ ¬(dxt = 0 ∧ dzt = 0)) := by
  have hsplit : ∀ d, d ∈ queenDirs ↔ d ∈ rookDirs ∨ d ∈ bishopDirs := by
    intro d
    simp [queenDirs]
  constructor
  · rintro ⟨d, hd, k, h1, h2⟩
    rcases (hsplit d).mp hd with hr | hb
    · have := rook_align_iff dxt dzt |>.mp ⟨d, hr, k, h1, h2⟩
      exact ⟨by tauto, this.2⟩
    · have := bishop_align_iff dxt dzt |>.mp ⟨d, hb, k, h1, h2⟩
      exact ⟨by tauto, this.2⟩
  · rintro ⟨hal, hne⟩
    by_cases hax : dxt = 0 ∨ dzt = 0
    · have hr : ¬(dxt ≠ 0 ∧ dzt ≠ 0) := by tauto
      obtain ⟨d, hd, k, h1, h2⟩ := (rook_align_iff dxt dzt).mpr ⟨hr, hne⟩
      exact ⟨d, (hsplit d).mpr (Or.inl hd), k, h1, h2⟩
    · have hab : dxt.natAbs = dzt.natAbs := by tauto
      obtain ⟨d, hd, k, h1, h2⟩ := (bishop_align_iff dxt dzt).mpr ⟨hab, hne⟩
      exact ⟨d, (hsplit d).mpr (Or.inr hd), k, h1, h2⟩

set_option maxHeartbeats 1000000 in
/-- C10: the set-generating and predicate forms of pseudo-legal move
computation agree — for every board, every occupied source square and every
on-board destination, the destination is in `generatePseudoMoves` iff
`isPseudoLegal` (outside attack-probe mode) accepts the move. -/
theorem generate_pseudo_agree (bs : Board) (x z : Int) (p : Piece)
    (hp : boardGet bs z x = some p)
    (tX tZ : Int) (htx : 0 ≤ tX ∧ tX < 8) (htz : 0 ≤ tZ ∧ tZ < 8) :
    ((tX, tZ) ∈ generatePseudoMoves x z bs) ↔
      isPseudoLegal ⟨x, z, tX, tZ⟩ bs false = true := by
  obtain ⟨hbz, hbx⟩ := boardGet_eq_some_bounds _ _ _ _ hp
  obtain ⟨pt, pc⟩ := p
  unfold generatePseudoMoves isPseudoLegal
  rw [hp]
  dsimp only
  cases pt with
  | king =>
    simp only [List.mem_filter, List.mem_map, kingDeltas, emptyOrEnemy]
    cases htq : boardGet bs tZ tX with
    | none =>
      simp only [Bool.and_true, Bool.not_false, Bool.false_and, Bool.and_false]
      rw [if_neg (by simp)]
      simp only [decide_eq_true_eq, isInside]
      constructor
      · rintro ⟨⟨a, ha, heq⟩, hin⟩
        rw [Prod.mk.injEq] at heq
        obtain ⟨h1, h2⟩ := heq
        simp only [List.mem_cons, List.not_mem_nil, or_false] at ha
        rcases ha with rfl | rfl | rfl | rfl | rfl | rfl | rfl | rfl <;>
          first
          | (dsimp only at h1 h2; omega)
          | omega
      · intro h
        have h1 : tX - x = -1 ∨ tX - x = 0 ∨ tX - x = 1 := by omega
        have h2 : tZ - z = -1 ∨ tZ - z = 0 ∨ tZ - z = 1 := by omega
        have hne : ¬(tX - x = 0 ∧ tZ - z = 0) := by omega
        refine ⟨⟨(tX - x, tZ - z), ?_, by rw [Prod.mk.injEq]; constructor <;> omega⟩,
          by first
            | omega
            | (simp only [decide_eq_true_eq]; omega)⟩
        rcases h1 with he1 | he1 | he1 <;> rcases h2 with he2 | he2 | he2 <;>
          rw [he1, he2] <;> simp_all
    | some q =>
      by_cases hqc : q.color = pc
      · simp [hqc]
      · rw [if_neg (by simp [hqc])]
        simp only [Bool.and_eq_true, decide_eq_true_eq, isInside]
        constructor
        · rintro ⟨⟨a, ha, heq⟩, hin, -⟩
          rw [Prod.mk.injEq] at heq
          obtain ⟨h1, h2⟩ := heq
          simp only [List.mem_cons, List.not_mem_nil, or_false] at ha
          rcases ha with rfl | rfl | rfl | rfl | rfl | rfl | rfl | rfl <;>
            first
            | (dsimp only at h1 h2; omega)
            | omega
        · intro h
          have h1 : tX - x = -1 ∨ tX - x = 0 ∨ tX - x = 1 := by omega
          have h2 : tZ - z = -1 ∨ tZ - z = 0 ∨ tZ - z = 1 := by omega
          have hne : ¬(tX - x = 0 ∧ tZ - z = 0) := by omega
          refine ⟨⟨(tX - x, tZ - z), ?_, by rw [Prod.mk.injEq]; constructor <;> omega⟩,
            by first
              | omega
              | (simp only [decide_eq_true_eq]; omega), by simp [hqc]⟩
          rcases h1 with he1 | he1 | he1 <;> rcases h2 with he2 | he2 | he2 <;>
            rw [he1, he2] <;> simp_all
  | rook =>
    dsimp only
    rw [slider_flatMap_iff bs pc x z tX tZ hbx hbz htx htz rookDirs
      (by
        intro d hd
        simp only [rookDirs, List.mem_cons, List.not_mem_nil, or_false] at hd
        rcases hd with rfl | rfl | rfl | rfl <;>
          exact ⟨by norm_num, by norm_num, by norm_num⟩),
      rook_align_iff (tX - x) (tZ - z)]
    cases htq : boardGet bs tZ tX with
    | none =>
      rw [if_neg (by simp)]
      have hne0 : ¬(tX - x = 0 ∧ tZ - z = 0) := by
        rintro ⟨e1, e2⟩
        rw [show tZ = z by omega, show tX = x by omega, hp] at htq
        exact absurd htq (by simp)
      constructor
      · rintro ⟨⟨hal, -⟩, hpc2, -⟩
        rw [if_neg hal]
        exact hpc2
      · intro h
        by_cases hax : (tX - x ≠ 0 ∧ tZ - z ≠ 0)
        · rw [if_pos hax] at h
          exact absurd h (by simp)
        · rw [if_neg hax] at h
          exact ⟨⟨hax, hne0⟩, h, fun q hq => absurd hq (by simp)⟩
    | some q =>
      by_cases hqc : q.color = pc
      · rw [if_pos (by simp [hqc])]
        apply iff_of_false
        · rintro ⟨-, -, htgt⟩
          exact htgt q rfl hqc
        · simp
      · rw [if_neg (by simp [hqc])]
        have hne0 : ¬(tX - x = 0 ∧ tZ - z = 0) := by
          rintro ⟨e1, e2⟩
          rw [show tZ = z by omega, show tX = x by omega, hp] at htq
          cases htq
          exact hqc rfl
        constructor
        · rintro ⟨⟨hal, -⟩, hpc2, -⟩
          rw [if_neg hal]
          exact hpc2
        · intro h
          by_cases hax : (tX - x ≠ 0 ∧ tZ - z ≠ 0)
          · rw [if_pos hax] at h
            exact absurd h (by simp)
          · rw [if_neg hax] at h
            exact ⟨⟨hax, hne0⟩, h, fun q' hq' => by
              cases hq'
              exact hqc⟩
  | bishop =>
    dsimp only
    rw [slider_flatMap_iff bs pc x z tX tZ hbx hbz htx htz bishopDirs
      (by
        intro d hd
        simp only [bishopDirs, List.mem_cons, List.not_mem_nil, or_false] at hd
        rcases hd with rfl | rfl | rfl | rfl <;>
          exact ⟨by norm_num, by norm_num, by norm_num⟩),
      bishop_align_iff (tX - x) (tZ - z)]
    cases htq : boardGet bs tZ tX with
    | none =>
      rw [if_neg (by simp)]
      have hne0 : ¬(tX - x = 0 ∧ tZ - z = 0) := by
        rintro ⟨e1, e2⟩
        rw [show tZ = z by omega, show tX = x by omega, hp] at htq
        exact absurd htq (by simp)
      constructor
      · rintro ⟨⟨hab, -⟩, hpc2, -⟩
        rw [if_neg (by omega)]
        exact hpc2
      · intro h
        by_cases hax : (tX - x).natAbs ≠ (tZ - z).natAbs
        · rw [if_pos hax] at h
          exact absurd h (by simp)
        · rw [if_neg hax] at h
          exact ⟨⟨by omega, hne0⟩, h, fun q hq => absurd hq (by simp)⟩
    | some q =>
      by_cases hqc : q.color = pc
      · rw [if_pos (by simp [hqc])]
        apply iff_of_false
        · rintro ⟨-, -, htgt⟩
          exact htgt q rfl hqc
        · simp
      · rw [if_neg (by simp [hqc])]
        have hne0 : ¬(tX - x = 0 ∧ tZ - z = 0) := by
          rintro ⟨e1, e2⟩
          rw [show tZ = z by omega, show tX = x by omega, hp] at htq
          cases htq
          exact hqc rfl
        constructor
        · rintro ⟨⟨hab, -⟩, hpc2, -⟩
          rw [if_neg (by omega)]
          exact hpc2
        · intro h
          by_cases hax : (tX - x).natAbs ≠ (tZ - z).natAbs
          · rw [if_pos hax] at h
            exact absurd h (by simp)
          · rw [if_neg hax] at h
            exact ⟨⟨by omega, hne0⟩, h, fun q' hq' => by
              cases hq'
              exact hqc⟩
  | queen =>
    dsimp only
    rw [slider_flatMap_iff bs pc x z tX tZ hbx hbz htx htz queenDirs
      (by
        intro d hd
        simp only [queenDirs, rookDirs, bishopDirs, List.mem_append, List.mem_cons,
          List.not_mem_nil, or_false] at hd
        rcases hd with (rfl | rfl | rfl | rfl) | (rfl | rfl | rfl | rfl) <;>
          exact ⟨by norm_num, by norm_num, by norm_num⟩),
      queen_align_iff (tX - x) (tZ - z)]
    cases htq : boardGet bs tZ tX with
    | none =>
      rw [if_neg (by simp)]
      have hne0 : ¬(tX - x = 0 ∧ tZ - z = 0) := by
        rintro ⟨e1, e2⟩
        rw [show tZ = z by omega, show tX = x by omega, hp] at htq
        exact absurd htq (by simp)
      constructor
      · rintro ⟨⟨hal, -⟩, hpc2, -⟩
        rw [if_pos hal]
        exact hpc2
      · intro h
        by_cases hax : (tX - x = 0 ∨ tZ - z = 0 ∨ (tX - x).natAbs = (tZ - z).natAbs)
        · rw [if_pos hax] at h
          exact ⟨⟨hax, hne0⟩, h, fun q hq => absurd hq (by simp)⟩
        · rw [if_neg hax] at h
          exact absurd h (by simp)
    | some q =>
      by_cases hqc : q.color = pc
      · rw [if_pos (by simp [hqc])]
        apply iff_of_false
        · rintro ⟨-, -, htgt⟩
          exact htgt q rfl hqc
        · simp
      · rw [if_neg (by simp [hqc])]
        have hne0 : ¬(tX - x = 0 ∧ tZ - z = 0) := by
          rintro ⟨e1, e2⟩
          rw [show tZ = z by omega, show tX = x by omega, hp] at htq
          cases htq
          exact hqc rfl
        constructor
        · rintro ⟨⟨hal, -⟩, hpc2, -⟩
          rw [if_pos hal]
          exact hpc2
        · intro h
          by_cases hax : (tX - x = 0 ∨ tZ - z = 0 ∨ (tX - x).natAbs = (tZ - z).natAbs)
          · rw [if_pos hax] at h
            exact ⟨⟨hax, hne0⟩, h, fun q' hq' => by
              cases hq'
              exact hqc⟩
          · rw [if_neg hax] at h
            exact absurd h (by simp)
  | knight =>
    simp only [List.mem_filter, List.mem_map, knightDeltas, emptyOrEnemy]
    cases htq : boardGet bs tZ tX with
    | none =>
      simp only [Bool.and_true, Bool.not_false]
      rw [if_neg (by simp)]
      simp only [decide_eq_true_eq, isInside]
      constructor
      · rintro ⟨⟨a, ha, heq⟩, hin⟩
        rw [Prod.mk.injEq] at heq
        obtain ⟨h1, h2⟩ := heq
        simp only [List.mem_cons, List.not_mem_nil, or_false] at ha
        rcases ha with rfl | rfl | rfl | rfl | rfl | rfl | rfl | rfl <;>
          first
          | (dsimp only at h1 h2; omega)
          | omega
      · intro h
        have hcomb : (tX - x = 1 ∧ tZ - z = 2) ∨ (tX - x = 2 ∧ tZ - z = 1) ∨
            (tX - x = -1 ∧ tZ - z = 2) ∨ (tX - x = -2 ∧ tZ - z = 1) ∨
            (tX - x = 1 ∧ tZ - z = -2) ∨ (tX - x = 2 ∧ tZ - z = -1) ∨
            (tX - x = -1 ∧ tZ - z = -2) ∨ (tX - x = -2 ∧ tZ - z = -1) := by omega
        refine ⟨⟨(tX - x, tZ - z), ?_, by rw [Prod.mk.injEq]; constructor <;> omega⟩,
          by first
            | omega
            | (simp only [decide_eq_true_eq]; omega)⟩
        rcases hcomb with ⟨he1, he2⟩ | ⟨he1, he2⟩ | ⟨he1, he2⟩ | ⟨he1, he2⟩ | ⟨he1, he2⟩ |
          ⟨he1, he2⟩ | ⟨he1, he2⟩ | ⟨he1, he2⟩ <;> rw [he1, he2] <;> simp_all
    | some q =>
      by_cases hqc : q.color = pc
      · simp [hqc]
      · rw [if_neg (by simp [hqc])]
        simp only [Bool.and_eq_true, decide_eq_true_eq, isInside]
        constructor
        · rintro ⟨⟨a, ha, heq⟩, hin, -⟩
          rw [Prod.mk.injEq] at heq
          obtain ⟨h1, h2⟩ := heq
          simp only [List.mem_cons, List.not_mem_nil, or_false] at ha
          rcases ha with rfl | rfl | rfl | rfl | rfl | rfl | rfl | rfl <;>
            first
            | (dsimp only at h1 h2; omega)
            | omega
        · intro h
          have hcomb : (tX - x = 1 ∧ tZ - z = 2) ∨ (tX - x = 2 ∧ tZ - z = 1) ∨
              (tX - x = -1 ∧ tZ - z = 2) ∨ (tX - x = -2 ∧ tZ - z = 1) ∨
              (tX - x = 1 ∧ tZ - z = -2) ∨ (tX - x = 2 ∧ tZ - z = -1) ∨
              (tX - x = -1 ∧ tZ - z = -2) ∨ (tX - x = -2 ∧ tZ - z = -1) := by omega
          refine ⟨⟨(tX - x, tZ - z), ?_, by rw [Prod.mk.injEq]; constructor <;> omega⟩,
            by first
              | omega
              | (simp only [decide_eq_true_eq]; omega), by simp [hqc]⟩
          rcases hcomb with ⟨he1, he2⟩ | ⟨he1, he2⟩ | ⟨he1, he2⟩ | ⟨he1, he2⟩ | ⟨he1, he2⟩ |
            ⟨he1, he2⟩ | ⟨he1, he2⟩ | ⟨he1, he2⟩ <;> rw [he1, he2] <;> simp_all
  | pawn =>
    dsimp only
    cases pc with
    | white =>
      simp only [if_true, List.mem_append, List.mem_filter, List.mem_cons, List.not_mem_nil,
        or_false, List.mem_ite_nil_right, Prod.mk.injEq]
      cases htq : boardGet bs tZ tX with
      | none =>
        rw [if_neg (by simp)]
        simp only [isInside, decide_eq_true_eq, Bool.and_false, Bool.and_true, Bool.and_eq_true]
        constructor
        · rintro ((⟨⟨hin, hemp⟩, he1, he2⟩ | ⟨⟨hz6, he1f, he2f⟩, hx1, hx2⟩) | ⟨-, hff⟩)
          · rw [if_pos (by omega), if_pos ⟨by omega, trivial⟩]
          · rw [if_pos (by omega), if_neg (fun hc => by omega),
              if_pos ⟨by omega, hz6, trivial, he1f⟩]
          · exact absurd hff (by simp)
        · intro h
          by_cases hdx : tX - x = 0
          · rw [if_pos hdx] at h
            by_cases h1 : tZ - z = -1 ∧ True
            · left
              left
              refine ⟨⟨by omega, ?_⟩, by omega, by omega⟩
              rw [show z + -1 = tZ by omega, show x = tX by omega]
              exact htq
            · rw [if_neg h1] at h
              by_cases h2 : tZ - z = 2 * -1 ∧ z = 6 ∧ True ∧ boardGet bs (z + -1) x = none
              · left
                right
                refine ⟨⟨h2.2.1, h2.2.2.2, ?_⟩, by omega, by omega⟩
                rw [show z + 2 * -1 = tZ by omega, show x = tX by omega]
                exact htq
              · rw [if_neg h2] at h
                exact absurd h (by simp)
          · rw [if_neg hdx] at h
            simp at h
      | some q =>
        by_cases hqc : q.color = Color.white
        · rw [if_pos (by simp [hqc])]
          apply iff_of_false
          · simp only [isInside, decide_eq_true_eq, Bool.and_eq_true]
            rintro ((⟨⟨hin, hemp⟩, he1, he2⟩ | ⟨⟨hz6, he1f, he2f⟩, hx1, hx2⟩) | ⟨hor, -, hcq⟩)
            · rw [show z + -1 = tZ by omega, show x = tX by omega] at hemp
              rw [htq] at hemp
              exact absurd hemp (by simp)
            · rw [show z + 2 * -1 = tZ by omega, show x = tX by omega] at he2f
              rw [htq] at he2f
              exact absurd he2f (by simp)
            · rw [hqc] at hcq
              simp at hcq
          · simp
        · rw [if_neg (by simp [hqc])]
          simp only [isInside, decide_eq_true_eq, Bool.and_eq_true]
          constructor
          · rintro ((⟨⟨hin, hemp⟩, he1, he2⟩ | ⟨⟨hz6, he1f, he2f⟩, hx1, hx2⟩) | ⟨hor, -, hcq⟩)
            · rw [show z + -1 = tZ by omega, show x = tX by omega] at hemp
              rw [htq] at hemp
              exact absurd hemp (by simp)
            · rw [show z + 2 * -1 = tZ by omega, show x = tX by omega] at he2f
              rw [htq] at he2f
              exact absurd he2f (by simp)
            · rw [if_neg (by omega), if_pos ⟨by omega, by omega⟩]
              simp [hqc]
          · intro h
            by_cases hdx : tX - x = 0
            · rw [if_pos hdx, if_neg (fun hc => absurd hc.2 (by simp)),
                if_neg (fun hc => absurd hc.2.2.1 (by simp))] at h
              exact absurd h (by simp)
            · rw [if_neg hdx] at h
              by_cases h3 : (tX - x).natAbs = 1 ∧ tZ - z = -1
              · rw [if_pos h3] at h
                right
                refine ⟨?_, ⟨by omega, by omega, by omega, by omega⟩, by simpa using h⟩
                omega
              · rw [if_neg h3] at h
                exact absurd h (by simp)
    | black =>
      have hcw : ∀ a b : Int, (if Color.black = Color.white then a else b) = b :=
        fun a b => if_neg (by simp)
      simp only [hcw, List.mem_append, List.mem_filter, List.mem_cons,
        List.not_mem_nil, or_false, List.mem_ite_nil_right, Prod.mk.injEq]
      cases htq : boardGet bs tZ tX with
      | none =>
        rw [if_neg (by simp)]
        simp only [isInside, decide_eq_true_eq, Bool.and_false, Bool.and_true, Bool.and_eq_true]
        constructor
        · rintro ((⟨⟨hin, hemp⟩, he1, he2⟩ | ⟨⟨hz1, he1f, he2f⟩, hx1, hx2⟩) | ⟨-, hff⟩)
          · rw [if_pos (by omega), if_pos ⟨by omega, trivial⟩]
          · rw [if_pos (by omega), if_neg (fun hc => by omega),
              if_pos ⟨by omega, hz1, trivial, he1f⟩]
          · exact absurd hff (by simp)
        · intro h
          by_cases hdx : tX - x = 0
          · rw [if_pos hdx] at h
            by_cases h1 : tZ - z = 1 ∧ True
            · left
              left
              refine ⟨⟨by omega, ?_⟩, by omega, by omega⟩
              rw [show z + 1 = tZ by omega, show x = tX by omega]
              exact htq
            · rw [if_neg h1] at h
              by_cases h2 : tZ - z = 2 * 1 ∧ z = 1 ∧ True ∧ boardGet bs (z + 1) x = none
              · left
                right
                refine ⟨⟨h2.2.1, h2.2.2.2, ?_⟩, by omega, by omega⟩
                rw [show z + 2 * 1 = tZ by omega, show x = tX by omega]
                exact htq
              · rw [if_neg h2] at h
                exact absurd h (by simp)
          · rw [if_neg hdx] at h
            simp at h
      | some q =>
        by_cases hqc : q.color = Color.black
        · rw [if_pos (by simp [hqc])]
          apply iff_of_false
          · simp only [isInside, decide_eq_true_eq, Bool.and_eq_true]
            rintro ((⟨⟨hin, hemp⟩, he1, he2⟩ | ⟨⟨hz1, he1f, he2f⟩, hx1, hx2⟩) | ⟨hor, -, hcq⟩)
            · rw [show z + 1 = tZ by omega, show x = tX by omega] at hemp
              rw [htq] at hemp
              exact absurd hemp (by simp)
            · rw [show z + 2 * 1 = tZ by omega, show x = tX by omega] at he2f
              rw [htq] at he2f
              exact absurd he2f (by simp)
            · rw [hqc] at hcq
              simp at hcq
          · simp
        · rw [if_neg (by simp [hqc])]
          simp only [isInside, decide_eq_true_eq, Bool.and_eq_true]
          constructor
          · rintro ((⟨⟨hin, hemp⟩, he1, he2⟩ | ⟨⟨hz1, he1f, he2f⟩, hx1, hx2⟩) | ⟨hor, -, hcq⟩)
            · rw [show z + 1 = tZ by omega, show x = tX by omega] at hemp
              rw [htq] at hemp
              exact absurd hemp (by simp)
            · rw [show z + 2 * 1 = tZ by omega, show x = tX by omega] at he2f
              rw [htq] at he2f
              exact absurd he2f (by simp)
            · rw [if_neg (by omega), if_pos ⟨by omega, by omega⟩]
              simp [hqc]
          · intro h
            by_cases hdx : tX - x = 0
            · rw [if_pos hdx, if_neg (fun hc => absurd hc.2 (by simp)),
                if_neg (fun hc => absurd hc.2.2.1 (by simp))] at h
              exact absurd h (by simp)
            · rw [if_neg hdx] at h
              by_cases h3 : (tX - x).natAbs = 1 ∧ tZ - z = 1
              · rw [if_pos h3] at h
                right
                refine ⟨?_, ⟨by omega, by omega, by omega, by omega⟩, by simpa using h⟩
                omega
              · rw [if_neg h3] at h
                exact absurd h (by simp)


theorem generate_pseudo_agree_witness :
    boardGet initialBoard (7 : Int) (1 : Int) = some ⟨.knight, .white⟩ ∧
    ((0 : Int) ≤ 2 ∧ (2 : Int) < 8) ∧ ((0 : Int) ≤ 5 ∧ (5 : Int) < 8) ∧
    (((2 : Int), (5 : Int)) ∈ generatePseudoMoves 1 7 initialBoard ↔
      isPseudoLegal ⟨1, 7, 2, 5⟩ initialBoard false = true) :=
  ⟨by decide, by decide, by decide,
    generate_pseudo_agree initialBoard 1 7 ⟨.knight, .white⟩ (by decide) 2 5
      (by decide) (by decide)⟩

end Chess3D
